import Mathlib

/-
Verification of the scaffold-creation script `createProject.py`.

The script walks a constant table mapping relative directory paths to lists
of file names.  For each entry it creates the directory (with all missing
parents) unless the path already exists, then creates each listed file as an
empty file unless the path already exists, printing one progress line per
created directory or file and one final summary line.

The embedding models the filesystem as an association list from paths
(lists of path segments) to entries (directories or files with string
content).  Python filesystem primitives are modelled as follows:
  - os.path.exists        -> pathExists
  - os.makedirs           -> makedirs (creates every missing ancestor,
                             fails when a component exists as a file or
                             when the leaf already exists)
  - open(path, mode w)    -> openWrite (creates an empty file, truncates an
                             existing file, fails when the parent directory
                             is missing or is not a directory)
The print calls are modelled by a structured log whose exact rendered text
is given by LogLine.render.  An uncaught error terminates the walk at once;
the result carries the filesystem and log at the moment of failure.
-/

set_option autoImplicit false
set_option linter.unusedVariables false

namespace CreateProject

/-- A filesystem entry: a directory, or a regular file with its content. -/
inductive Entry
  | dir : Entry
  | file : String → Entry
deriving DecidableEq, Repr

/-- A path is a list of path segments. -/
abbrev Path := List String

/-- The filesystem: an association list from paths to entries.  The first
binding for a path wins; entries are only ever added at paths that are
absent, except that openWrite on an existing file replaces its content. -/
abbrev FS := List (Path × Entry)

/-- Look up the entry stored at a path (first binding wins). -/
def lookupFS : FS → Path → Option Entry
  | [], _ => none
  | (q, e) :: rest, p => if q = p then some e else lookupFS rest p

/-- Model of os.path.exists: the path is bound to some entry. -/
def pathExists (fs : FS) (p : Path) : Bool := (lookupFS fs p).isSome

/-- Bind a path to an entry, shadowing any previous binding. -/
def setEntry (fs : FS) (p : Path) (e : Entry) : FS := (p, e) :: fs

/-- Filesystem errors raised by the modelled primitives. -/
inductive FsError
  | fileExists : Path → FsError
  | notADirectory : Path → FsError
  | isADirectory : Path → FsError
  | fileNotFound : Path → FsError
deriving DecidableEq, Repr

/-- Worker for makedirs: walk the remaining segments, extending the already
validated ancestor path acc.  Intermediate components that exist as
directories are kept, missing ones are created, a component that exists as a
file is an error, and an existing leaf is an error (os.makedirs without
exist_ok). -/
def makedirsAux : FS → Path → List String → Except FsError FS
  | fs, _, [] => .ok fs
  | fs, acc, s :: rest =>
    let q := acc ++ [s]
    if rest.isEmpty then
      match lookupFS fs q with
      | some _ => .error (.fileExists q)
      | none => .ok (setEntry fs q .dir)
    else
      match lookupFS fs q with
      | some .dir => makedirsAux fs q rest
      | some (.file _) => .error (.notADirectory q)
      | none => makedirsAux (setEntry fs q .dir) q rest

/-- Model of os.makedirs: create the directory at p together with every
missing intermediate parent. -/
def makedirs (fs : FS) (p : Path) : Except FsError FS := makedirsAux fs [] p

/-- Model of open(path, mode w) followed by closing without writing: create
an empty file, truncating an existing one; fail when the path is a
directory, or when the parent is missing or is not a directory.  A path of
length at most one lives directly in the root, which always exists. -/
def openWrite (fs : FS) (p : Path) : Except FsError FS :=
  match lookupFS fs p with
  | some .dir => .error (.isADirectory p)
  | some (.file _) => .ok (setEntry fs p (.file ""))
  | none =>
    if p.length ≤ 1 then .ok (setEntry fs p (.file ""))
    else
      match lookupFS fs p.dropLast with
      | some .dir => .ok (setEntry fs p (.file ""))
      | some (.file _) => .error (.notADirectory p.dropLast)
      | none => .error (.fileNotFound p.dropLast)

/-- One line of console output. -/
inductive LogLine
  | createdDir : String → LogLine
  | createdFile : String → String → LogLine
  | summary : LogLine
deriving DecidableEq, Repr

/-- The exact text printed by the source for each log line. -/
def LogLine.render : LogLine → String
  | .createdDir d => "Created directory: " ++ d
  | .createdFile d f => "Created file: " ++ d ++ "/" ++ f
  | .summary => "Successfully extended project structure."

/-- State threaded through the walk: the filesystem and the log so far. -/
structure St where
  fs : FS
  log : List LogLine
deriving DecidableEq, Repr

/-- Base directory of the source: the current directory. -/
def base_dir : String := "."

/-- The constant specification table of the source, in source order:
directory paths mapped to their file-name lists. -/
def directories : List (String × List String) := [
  ("public/fonts", []),
  ("public/icons", []),
  ("public/presets", []),
  ("app/api/export", ["route.ts"]),
  ("app/api/presets", ["route.ts"]),
  ("components/ui", [
    "Button.tsx", "Slider.tsx", "Knob.tsx", "Switch.tsx",
    "Card.tsx", "Modal.tsx", "Tabs.tsx", "Dropdown.tsx", "Tooltip.tsx"]),
  ("components/layout", ["Header.tsx", "Footer.tsx", "Sidebar.tsx"]),
  ("components/audio", [
    "SoundGrid.tsx", "SoundCard.tsx", "Timeline.tsx", "Track.tsx",
    "TrackControls.tsx", "TimelineControls.tsx", "Waveform.tsx", "Spectrum.tsx"]),
  ("components/modals", ["SoundEditor.tsx", "ExportModal.tsx", "PresetModal.tsx"]),
  ("components/controls", [
    "VolumeControl.tsx", "PanControl.tsx", "PitchControl.tsx",
    "FilterControls.tsx", "EnvelopeControls.tsx", "LFOControls.tsx",
    "EffectsControls.tsx", "EQControls.tsx", "DynamicsControls.tsx", "SpatialControls.tsx"]),
  ("lib/audio", ["audioContext.ts", "generators.ts", "processors.ts", "effects.ts", "exporters.ts"]),
  ("lib/hooks", ["useAudioNode.ts", "useTimeline.ts", "usePresets.ts", "useDragResize.ts"]),
  ("lib/utils", ["animations.ts", "storage.ts", "format.ts"]),
  ("types", ["audio.ts", "preset.ts", "ui.ts"]),
  ("store", ["index.ts"]),
  ("store/slices", ["timelineSlice.ts", "soundsSlice.ts", "uiSlice.ts"])]

/-- Split a raw path string into segments at the separator, accumulating the
current segment in reverse. -/
def splitPathAux : List Char → List Char → List String
  | [], acc => [String.mk acc.reverse]
  | c :: cs, acc =>
    if c = '/' then String.mk acc.reverse :: splitPathAux cs [] else splitPathAux cs (c :: acc)

/-- Split a path string on the separator character. -/
def splitPath (s : String) : List String := splitPathAux s.data []

/-- Path of a table directory: os.path.join of base_dir with the directory
string, as the list of its segments. -/
def resolveDir (d : String) : Path := base_dir :: splitPath d

/-- Process the file list of one table entry: for each name in order, if the
file path does not exist, create it empty and log the creation; an error
stops at once with the state reached so far. -/
def doFiles (d : String) (dirPath : Path) : List String → St → St × Option FsError
  | [], st => (st, none)
  | f :: rest, st =>
    let fp := dirPath ++ [f]
    if pathExists st.fs fp then doFiles d dirPath rest st
    else
      match openWrite st.fs fp with
      | .error e => (st, some e)
      | .ok fs₂ => doFiles d dirPath rest ⟨fs₂, st.log ++ [.createdFile d f]⟩

/-- Process one table entry: create the directory (with parents) unless its
path exists, logging the creation, then process its file list. -/
def doEntry (st : St) (ent : String × List String) : St × Option FsError :=
  let dirPath := resolveDir ent.1
  if pathExists st.fs dirPath then doFiles ent.1 dirPath ent.2 st
  else
    match makedirs st.fs dirPath with
    | .error e => (st, some e)
    | .ok fs₂ => doFiles ent.1 dirPath ent.2 ⟨fs₂, st.log ++ [.createdDir ent.1]⟩

/-- Walk a list of table entries in order, stopping at the first error. -/
def runEntries : St → List (String × List String) → St × Option FsError
  | st, [] => (st, none)
  | st, ent :: rest =>
    match doEntry st ent with
    | (st₂, none) => runEntries st₂ rest
    | (st₂, some e) => (st₂, some e)

/-- Result of one program run: final filesystem, console log, and the error
that aborted the walk, if any. -/
structure RunResult where
  fs : FS
  log : List LogLine
  err : Option FsError
deriving DecidableEq, Repr

/-- The whole of create_structure: walk the table from an initial
filesystem; on success append the final summary line. -/
def create_structure (fs : FS) : RunResult :=
  match runEntries ⟨fs, []⟩ directories with
  | (st, none) => ⟨st.fs, st.log ++ [.summary], none⟩
  | (st, some e) => ⟨st.fs, st.log, some e⟩

/-- The script entry point.  The source reads no command-line arguments at
all: invoking the module runs create_structure on the current filesystem
state, whatever arguments were passed. -/
def main (args : List String) (fs : FS) : RunResult := create_structure fs

/-- Process exit status: 0 on success, nonzero when an uncaught error
aborted the run. -/
def exitCode (r : RunResult) : Nat := if r.err.isSome then 1 else 0

/-- q is a nonempty ancestor-or-self of p in the path tree. -/
def isAncestor (q p : Path) : Prop := q ≠ [] ∧ p.take q.length = q

instance (q p : Path) : Decidable (isAncestor q p) := by
  unfold isAncestor; infer_instance

/-- Count occurrences of a log line in a log. -/
def countL (x : LogLine) (l : List LogLine) : Nat := l.countP (fun y => decide (y = x))

/-- No file path of the table is an ancestor of any directory path of the
table (so the walk never creates a directory at a file target). -/
def FilesNotDirs (E : List (String × List String)) : Prop :=
  ∀ ent ∈ E, ∀ f ∈ ent.2, ∀ ent' ∈ E, ¬ isAncestor (resolveDir ent.1 ++ [f]) (resolveDir ent'.1)

instance (E : List (String × List String)) : Decidable (FilesNotDirs E) := by
  unfold FilesNotDirs; infer_instance

/-- The run over E started from init creates a directory at q: q is an
ancestor of the resolved path of some entry whose resolved path is absent
in init. -/
def DirCreatedCond (E : List (String × List String)) (init : FS) (q : Path) : Prop :=
  ∃ ent ∈ E, isAncestor q (resolveDir ent.1) ∧ lookupFS init (resolveDir ent.1) = none

/-- q is the path of some file listed in the table E. -/
def FileTargetCond (E : List (String × List String)) (q : Path) : Prop :=
  ∃ ent ∈ E, ∃ f ∈ ent.2, q = resolveDir ent.1 ++ [f]

instance (E : List (String × List String)) (init : FS) (q : Path) :
    Decidable (DirCreatedCond E init q) := by
  unfold DirCreatedCond; infer_instance

instance (E : List (String × List String)) (q : Path) :
    Decidable (FileTargetCond E q) := by
  unfold FileTargetCond; infer_instance

/-- Predicted final binding of q after a successful run over E from init:
existing entries are kept; created directories and created empty files fill
the absent target paths. -/
def expectedEntry (E : List (String × List String)) (init : FS) (q : Path) : Option Entry :=
  match lookupFS init q with
  | some v => some v
  | none =>
    if DirCreatedCond E init q then some .dir
    else if FileTargetCond E q then some (.file "") else none

/-- Invariant of states reachable from init by a run over a sublist of E:
existing bindings are kept; new bindings are directories or empty files;
new empty files sit at file targets of E; a created directory has all its
nonempty ancestors present as directories. -/
def Inv (init : FS) (E : List (String × List String)) (st : St) : Prop :=
  (∀ p v, lookupFS init p = some v → lookupFS st.fs p = some v) ∧
  (∀ p, lookupFS init p = none →
    lookupFS st.fs p = none ∨ lookupFS st.fs p = some .dir ∨ lookupFS st.fs p = some (.file "")) ∧
  (∀ p, lookupFS init p = none → lookupFS st.fs p = some (.file "") → FileTargetCond E p) ∧
  (∀ p, lookupFS init p = none → lookupFS st.fs p = some .dir →
    ∀ a, isAncestor a p → lookupFS st.fs a = some .dir)

/-- Separation between an earlier table entry a and a later one b: distinct
keys, and nothing a creates (its directory chain or its files) can be the
directory path or a file path of b. -/
def entSep (a b : String × List String) : Prop :=
  a.1 ≠ b.1 ∧
  ¬ isAncestor (resolveDir b.1) (resolveDir a.1) ∧
  (∀ f ∈ a.2, resolveDir a.1 ++ [f] ≠ resolveDir b.1) ∧
  (∀ g ∈ b.2, ¬ isAncestor (resolveDir b.1 ++ [g]) (resolveDir a.1)) ∧
  (∀ f ∈ a.2, ∀ g ∈ b.2, resolveDir a.1 ++ [f] ≠ resolveDir b.1 ++ [g])

instance (a b : String × List String) : Decidable (entSep a b) := by
  unfold entSep; infer_instance

/-- Two specification tables with the same entries up to reordering of the
entry list and of each entry's file list. -/
def SpecPerm (e₁ e₂ : List (String × List String)) : Prop :=
  List.Perm (e₁.map (fun x => (x.1, (x.2 : Multiset String))))
    (e₂.map (fun x => (x.1, (x.2 : Multiset String))))

instance (e₁ e₂ : List (String × List String)) : Decidable (SpecPerm e₁ e₂) := by
  unfold SpecPerm; infer_instance

/-- A concrete reordering of the specification table: entries reversed and
every file list reversed.  Used to exercise order independence. -/
def directoriesReversed : List (String × List String) :=
  (directories.map (fun x => (x.1, x.2.reverse))).reverse

/-! Basic lemmas about the filesystem model. -/

theorem lookupFS_setEntry (fs : FS) (p : Path) (e : Entry) (q : Path) :
    lookupFS (setEntry fs p e) q = if p = q then some e else lookupFS fs q := by
  simp [setEntry, lookupFS]

theorem pathExists_false_iff (fs : FS) (p : Path) :
    pathExists fs p = false ↔ lookupFS fs p = none := by
  unfold pathExists
  cases lookupFS fs p <;> simp

theorem pathExists_true_iff (fs : FS) (p : Path) :
    pathExists fs p = true ↔ ∃ v, lookupFS fs p = some v := by
  unfold pathExists
  cases lookupFS fs p <;> simp

theorem pathExists_of_lookup {fs : FS} {p : Path} {v : Entry}
    (h : lookupFS fs p = some v) : pathExists fs p = true := by
  rw [pathExists_true_iff]; exact ⟨v, h⟩

/-! Lemmas about path ancestry. -/

theorem isAncestor_length {q p : Path} (h : isAncestor q p) : q.length ≤ p.length := by
  have h2 := h.2
  have := congrArg List.length h2
  simp [List.length_take] at this
  omega

theorem isAncestor_refl {p : Path} (h : p ≠ []) : isAncestor p p :=
  ⟨h, List.take_length p⟩

theorem isAncestor_trans {a p k : Path} (h₁ : isAncestor a p) (h₂ : isAncestor p k) :
    isAncestor a k := by
  refine ⟨h₁.1, ?_⟩
  have hlen : a.length ≤ p.length := isAncestor_length h₁
  calc k.take a.length = (k.take p.length).take a.length := by
        rw [List.take_take, Nat.min_eq_left hlen]
    _ = p.take a.length := by rw [h₂.2]
    _ = a := h₁.2

theorem not_isAncestor_append (p : Path) (f : String) : ¬ isAncestor (p ++ [f]) p := by
  intro h
  have := isAncestor_length h
  simp at this

theorem isAncestor_append_cons (acc : Path) (s : String) (rest : List String) :
    isAncestor (acc ++ [s]) (acc ++ s :: rest) := by
  refine ⟨by simp, ?_⟩
  have : acc ++ s :: rest = (acc ++ [s]) ++ rest := by simp
  rw [this, List.take_append_eq_append_take]
  simp

theorem eq_of_isAncestor_length {q p : Path} (h : isAncestor q p)
    (hl : p.length ≤ q.length) : q = p := by
  have h2 := h.2
  rw [List.take_of_length_le hl] at h2
  exact h2.symm

/-! Lemmas about makedirs. -/

theorem makedirsAux_frame :
    ∀ (rest : List String) (fs : FS) (acc : Path) (fs₂ : FS),
      makedirsAux fs acc rest = .ok fs₂ →
      ∀ (p : Path) (v : Entry), lookupFS fs p = some v → lookupFS fs₂ p = some v := by
  intro rest
  induction rest with
  | nil =>
    intro fs acc fs₂ h p v hp
    simp [makedirsAux] at h
    rwa [← h]
  | cons s tail ih =>
    intro fs acc fs₂ h p v hp
    simp only [makedirsAux] at h
    cases tail with
    | nil =>
      simp only [List.isEmpty_nil, if_true] at h
      cases hq : lookupFS fs (acc ++ [s]) with
      | some e => rw [hq] at h; exact absurd h (by simp)
      | none =>
        rw [hq] at h
        simp at h
        rw [← h, lookupFS_setEntry]
        have hne : ¬ acc ++ [s] = p := fun he => by rw [he, hp] at hq; exact absurd hq (by simp)
        simp [hne, hp]
    | cons t tail' =>
      simp only [List.isEmpty_cons, if_false] at h
      cases hq : lookupFS fs (acc ++ [s]) with
      | some e =>
        rw [hq] at h
        cases e with
        | dir => exact ih fs (acc ++ [s]) fs₂ h p v hp
        | file c => exact absurd h (by simp)
      | none =>
        rw [hq] at h
        refine ih _ (acc ++ [s]) fs₂ h p v ?_
        rw [lookupFS_setEntry]
        have hne : ¬ acc ++ [s] = p := fun he => by rw [he, hp] at hq; exact absurd hq (by simp)
        simp [hne, hp]

theorem makedirsAux_chain :
    ∀ (rest : List String) (fs : FS) (acc : Path) (fs₂ : FS),
      makedirsAux fs acc rest = .ok fs₂ →
      ∀ q : Path, isAncestor q (acc ++ rest) → acc.length < q.length →
        lookupFS fs₂ q = some .dir := by
  intro rest
  induction rest with
  | nil =>
    intro fs acc fs₂ h q hanc hlen
    have := isAncestor_length hanc
    simp at this
    omega
  | cons s tail ih =>
    intro fs acc fs₂ h q hanc hlen
    simp only [makedirsAux] at h
    have hqcase : q = acc ++ [s] ∨ (acc ++ [s]).length < q.length := by
      rcases Nat.lt_or_ge (acc ++ [s]).length q.length with h' | h'
      · exact Or.inr h'
      · left
        simp only [List.length_append, List.length_singleton] at h'
        have : q.length = acc.length + 1 := by omega
        have h2 := hanc.2
        have : q = (acc ++ s :: tail).take (acc.length + 1) := by rw [← this, h2]
        rw [this]
        have : acc ++ s :: tail = (acc ++ [s]) ++ tail := by simp
        rw [this, List.take_append_eq_append_take]
        simp
    cases tail with
    | nil =>
      simp only [List.isEmpty_nil, if_true] at h
      cases hq : lookupFS fs (acc ++ [s]) with
      | some e => rw [hq] at h; exact absurd h (by simp)
      | none =>
        rw [hq] at h
        simp at h
        rcases hqcase with rfl | hgt
        · rw [← h, lookupFS_setEntry]; simp
        · have := isAncestor_length hanc
          simp at this hgt
          omega
    | cons t tail' =>
      simp only [List.isEmpty_cons, if_false] at h
      cases hq : lookupFS fs (acc ++ [s]) with
      | some e =>
        rw [hq] at h
        cases e with
        | dir =>
          rcases hqcase with rfl | hgt
          · exact makedirsAux_frame _ _ _ _ h _ _ hq
          · refine ih fs (acc ++ [s]) fs₂ h q ?_ hgt
            have : acc ++ s :: t :: tail' = (acc ++ [s]) ++ t :: tail' := by simp
            rwa [this] at hanc
        | file c => exact absurd h (by simp)
      | none =>
        rw [hq] at h
        rcases hqcase with rfl | hgt
        · refine makedirsAux_frame _ _ _ _ h _ _ ?_
          rw [lookupFS_setEntry]; simp
        · refine ih _ (acc ++ [s]) fs₂ h q ?_ hgt
          have : acc ++ s :: t :: tail' = (acc ++ [s]) ++ t :: tail' := by simp
          rwa [this] at hanc

theorem makedirsAux_cases :
    ∀ (rest : List String) (fs : FS) (acc : Path) (fs₂ : FS),
      makedirsAux fs acc rest = .ok fs₂ →
      ∀ q : Path, lookupFS fs₂ q = lookupFS fs q ∨
        (lookupFS fs q = none ∧ lookupFS fs₂ q = some .dir ∧ isAncestor q (acc ++ rest)) := by
  intro rest
  induction rest with
  | nil =>
    intro fs acc fs₂ h q
    simp [makedirsAux] at h
    rw [← h]
    exact Or.inl rfl
  | cons s tail ih =>
    intro fs acc fs₂ h q
    simp only [makedirsAux] at h
    cases tail with
    | nil =>
      simp only [List.isEmpty_nil, if_true] at h
      cases hq : lookupFS fs (acc ++ [s]) with
      | some e => rw [hq] at h; exact absurd h (by simp)
      | none =>
        rw [hq] at h
        simp at h
        rw [← h, lookupFS_setEntry]
        by_cases he : acc ++ [s] = q
        · subst he
          refine Or.inr ⟨hq, by simp, isAncestor_append_cons acc s []⟩
        · simp [he]
    | cons t tail' =>
      simp only [List.isEmpty_cons, if_false] at h
      have hlist : acc ++ s :: t :: tail' = (acc ++ [s]) ++ t :: tail' := by simp
      cases hq : lookupFS fs (acc ++ [s]) with
      | some e =>
        rw [hq] at h
        cases e with
        | dir =>
          rcases ih fs (acc ++ [s]) fs₂ h q with h' | ⟨h1, h2, h3⟩
          · exact Or.inl h'
          · exact Or.inr ⟨h1, h2, by rwa [hlist]⟩
        | file c => exact absurd h (by simp)
      | none =>
        rw [hq] at h
        rcases ih _ (acc ++ [s]) fs₂ h q with h' | ⟨h1, h2, h3⟩
        · rw [lookupFS_setEntry] at h'
          by_cases he : acc ++ [s] = q
          · subst he
            refine Or.inr ⟨hq, by simpa using h', isAncestor_append_cons acc s (t :: tail')⟩
          · rw [if_neg he] at h'
            exact Or.inl h'
        · rw [lookupFS_setEntry] at h1
          by_cases he : acc ++ [s] = q
          · exact absurd h1 (by simp [he])
          · rw [if_neg he] at h1
            exact Or.inr ⟨h1, h2, by rwa [hlist]⟩

/-! Lemmas about openWrite. -/

theorem openWrite_ok_of_none {fs : FS} {p : Path} {fs₂ : FS}
    (hp : lookupFS fs p = none) (h : openWrite fs p = .ok fs₂) :
    fs₂ = setEntry fs p (.file "") := by
  unfold openWrite at h
  rw [hp] at h
  by_cases hl : p.length ≤ 1
  · rw [if_pos hl] at h
    simpa using h.symm
  · rw [if_neg hl] at h
    cases hq : lookupFS fs p.dropLast with
    | some e =>
      rw [hq] at h
      cases e with
      | dir => simpa using h.symm
      | file c => exact absurd h (by simp)
    | none => rw [hq] at h; exact absurd h (by simp)

/-! Lemmas about counting log lines. -/

theorem countL_append (x : LogLine) (l₁ l₂ : List LogLine) :
    countL x (l₁ ++ l₂) = countL x l₁ + countL x l₂ := by
  simp [countL, List.countP_append]

theorem countL_concat (x y : LogLine) (l : List LogLine) :
    countL x (l ++ [y]) = countL x l + (if y = x then 1 else 0) := by
  rw [countL_append]
  by_cases h : y = x <;> simp [countL, List.countP_cons, h]

theorem countL_nil (x : LogLine) : countL x [] = 0 := rfl

theorem countL_eq_zero {x : LogLine} {l : List LogLine} (h : ∀ y ∈ l, y ≠ x) :
    countL x l = 0 := by
  rw [countL, List.countP_eq_zero]
  intro a ha
  simp [h a ha]

/-! Lemmas about doFiles. -/

theorem doFiles_frame (d : String) (dp : Path) :
    ∀ (files : List String) (st st₂ : St) (e? : Option FsError),
      doFiles d dp files st = (st₂, e?) →
      ∀ (p : Path) (v : Entry), lookupFS st.fs p = some v → lookupFS st₂.fs p = some v := by
  intro files
  induction files with
  | nil =>
    intro st st₂ e? h p v hp
    simp [doFiles] at h
    rw [← h.1]; exact hp
  | cons f rest ih =>
    intro st st₂ e? h p v hp
    simp only [doFiles] at h
    cases hex : pathExists st.fs (dp ++ [f]) with
    | true =>
      rw [hex, if_pos rfl] at h
      exact ih st st₂ e? h p v hp
    | false =>
      rw [hex] at h
      simp only [Bool.false_eq_true, if_false] at h
      cases how : openWrite st.fs (dp ++ [f]) with
      | error e =>
        rw [how] at h
        simp at h
        rw [← h.1]; exact hp
      | ok fs₂ =>
        rw [how] at h
        have hnone : lookupFS st.fs (dp ++ [f]) = none := (pathExists_false_iff _ _).mp hex
        have hset := openWrite_ok_of_none hnone how
        refine ih _ st₂ e? h p v ?_
        rw [hset, lookupFS_setEntry]
        have hne : ¬ dp ++ [f] = p := fun he => by rw [he, hp] at hnone; exact absurd hnone (by simp)
        simp [hne, hp]

theorem doFiles_cases (d : String) (dp : Path) :
    ∀ (files : List String) (st st₂ : St) (e? : Option FsError),
      doFiles d dp files st = (st₂, e?) →
      ∀ q : Path, lookupFS st₂.fs q = lookupFS st.fs q ∨
        (lookupFS st.fs q = none ∧ lookupFS st₂.fs q = some (.file "") ∧
          ∃ f ∈ files, q = dp ++ [f]) := by
  intro files
  induction files with
  | nil =>
    intro st st₂ e? h q
    simp [doFiles] at h
    rw [← h.1]
    exact Or.inl rfl
  | cons f rest ih =>
    intro st st₂ e? h q
    simp only [doFiles] at h
    cases hex : pathExists st.fs (dp ++ [f]) with
    | true =>
      rw [hex, if_pos rfl] at h
      rcases ih st st₂ e? h q with h' | ⟨h1, h2, g, hg, he⟩
      · exact Or.inl h'
      · exact Or.inr ⟨h1, h2, g, by simp [hg], he⟩
    | false =>
      rw [hex] at h
      simp only [Bool.false_eq_true, if_false] at h
      cases how : openWrite st.fs (dp ++ [f]) with
      | error e =>
        rw [how] at h
        simp at h
        rw [← h.1]
        exact Or.inl rfl
      | ok fs₂ =>
        rw [how] at h
        have hnone : lookupFS st.fs (dp ++ [f]) = none := (pathExists_false_iff _ _).mp hex
        have hset := openWrite_ok_of_none hnone how
        rcases ih _ st₂ e? h q with h' | ⟨h1, h2, g, hg, he⟩
        · rw [hset, lookupFS_setEntry] at h'
          by_cases he : dp ++ [f] = q
          · subst he
            exact Or.inr ⟨hnone, by simpa using h', f, by simp, rfl⟩
          · rw [if_neg he] at h'
            exact Or.inl h'
        · rw [hset, lookupFS_setEntry] at h1
          by_cases hfe : dp ++ [f] = q
          · subst hfe
            rcases ih _ st₂ e? h (dp ++ [f]) with h' | ⟨_, h2', _⟩
            · rw [hset, lookupFS_setEntry] at h'
              exact Or.inr ⟨hnone, by simpa using h', f, by simp, rfl⟩
            · exact Or.inr ⟨hnone, h2', f, by simp, rfl⟩
          · rw [if_neg hfe] at h1
            exact Or.inr ⟨h1, h2, g, by simp [hg], he⟩

theorem doFiles_log_shape (d : String) (dp : Path) :
    ∀ (files : List String) (st st₂ : St) (e? : Option FsError),
      doFiles d dp files st = (st₂, e?) →
      ∃ L, st₂.log = st.log ++ L ∧ ∀ x ∈ L, ∃ f ∈ files, x = LogLine.createdFile d f := by
  intro files
  induction files with
  | nil =>
    intro st st₂ e? h
    simp [doFiles] at h
    exact ⟨[], by rw [← h.1]; simp, by simp⟩
  | cons f rest ih =>
    intro st st₂ e? h
    simp only [doFiles] at h
    cases hex : pathExists st.fs (dp ++ [f]) with
    | true =>
      rw [hex, if_pos rfl] at h
      rcases ih st st₂ e? h with ⟨L, hL, hx⟩
      refine ⟨L, hL, fun x hxL => ?_⟩
      rcases hx x hxL with ⟨g, hg, he⟩
      exact ⟨g, by simp [hg], he⟩
    | false =>
      rw [hex] at h
      simp only [Bool.false_eq_true, if_false] at h
      cases how : openWrite st.fs (dp ++ [f]) with
      | error e =>
        rw [how] at h
        simp at h
        exact ⟨[], by rw [← h.1]; simp, by simp⟩
      | ok fs₂ =>
        rw [how] at h
        rcases ih _ st₂ e? h with ⟨L, hL, hx⟩
        refine ⟨LogLine.createdFile d f :: L, by simpa using hL, fun x hxL => ?_⟩
        rcases List.mem_cons.mp hxL with he | hxL
        · exact ⟨f, by simp, by simpa using he⟩
        · rcases hx x hxL with ⟨g, hg, he⟩
          exact ⟨g, by simp [hg], he⟩

theorem doFiles_exists_after (d : String) (dp : Path) :
    ∀ (files : List String) (st st₂ : St),
      doFiles d dp files st = (st₂, none) →
      ∀ f ∈ files, pathExists st₂.fs (dp ++ [f]) = true := by
  intro files
  induction files with
  | nil => intro st st₂ h f hf; simp at hf
  | cons g rest ih =>
    intro st st₂ h f hf
    simp only [doFiles] at h
    cases hex : pathExists st.fs (dp ++ [g]) with
    | true =>
      rw [hex, if_pos rfl] at h
      rcases List.mem_cons.mp hf with hf | hf
      · subst hf
        rcases (pathExists_true_iff _ _).mp hex with ⟨v, hv⟩
        exact pathExists_of_lookup (doFiles_frame d dp rest st st₂ none h _ v hv)
      · exact ih st st₂ h f hf
    | false =>
      rw [hex] at h
      simp only [Bool.false_eq_true, if_false] at h
      cases how : openWrite st.fs (dp ++ [g]) with
      | error e =>
        rw [how] at h
        simp at h
      | ok fs₂ =>
        rw [how] at h
        have hnone : lookupFS st.fs (dp ++ [g]) = none := (pathExists_false_iff _ _).mp hex
        have hset := openWrite_ok_of_none hnone how
        rcases List.mem_cons.mp hf with hf | hf
        · subst hf
          refine pathExists_of_lookup (doFiles_frame d dp rest _ st₂ none h _ (Entry.file "") ?_)
          rw [hset, lookupFS_setEntry]
          simp
        · exact ih _ st₂ h f hf

theorem doFiles_creates (d : String) (dp : Path) :
    ∀ (files : List String) (st st₂ : St),
      doFiles d dp files st = (st₂, none) →
      ∀ f ∈ files,
        (lookupFS st.fs (dp ++ [f]) = none ∨ lookupFS st.fs (dp ++ [f]) = some (.file "")) →
        lookupFS st₂.fs (dp ++ [f]) = some (.file "") := by
  intro files
  induction files with
  | nil => intro st st₂ h f hf; simp at hf
  | cons g rest ih =>
    intro st st₂ h f hf hpre
    simp only [doFiles] at h
    cases hex : pathExists st.fs (dp ++ [g]) with
    | true =>
      rw [hex, if_pos rfl] at h
      by_cases hfg : f = g
      · subst hfg
        rcases hpre with hpre | hpre
        · rw [(pathExists_false_iff _ _).mpr hpre] at hex
          exact absurd hex (by simp)
        · exact doFiles_frame d dp rest st st₂ none h _ _ hpre
      · have hf' : f ∈ rest := by
          rcases List.mem_cons.mp hf with hf | hf
          · exact absurd hf hfg
          · exact hf
        exact ih st st₂ h f hf' hpre
    | false =>
      rw [hex] at h
      simp only [Bool.false_eq_true, if_false] at h
      cases how : openWrite st.fs (dp ++ [g]) with
      | error e => rw [how] at h; simp at h
      | ok fs₂ =>
        rw [how] at h
        have hnone : lookupFS st.fs (dp ++ [g]) = none := (pathExists_false_iff _ _).mp hex
        have hset := openWrite_ok_of_none hnone how
        by_cases hfg : f = g
        · subst hfg
          refine doFiles_frame d dp rest _ st₂ none h _ _ ?_
          rw [hset, lookupFS_setEntry]; simp
        · have hf' : f ∈ rest := by
            rcases List.mem_cons.mp hf with hf | hf
            · exact absurd hf hfg
            · exact hf
          refine ih _ st₂ h f hf' ?_
          have hne : ¬ dp ++ [g] = dp ++ [f] := by
            intro he
            exact hfg (by simpa using he.symm)
          rw [hset, lookupFS_setEntry, if_neg hne]
          exact hpre

theorem doFiles_skip (d : String) (dp : Path) :
    ∀ (files : List String) (st : St),
      (∀ f ∈ files, pathExists st.fs (dp ++ [f]) = true) →
      doFiles d dp files st = (st, none) := by
  intro files
  induction files with
  | nil => intro st h; simp [doFiles]
  | cons g rest ih =>
    intro st h
    simp only [doFiles]
    rw [h g (by simp), if_pos rfl]
    exact ih st (fun f hf => h f (by simp [hf]))

theorem doFiles_count_zero (d : String) (dp : Path) (f₀ : String) :
    ∀ (files : List String) (st st₂ : St) (e? : Option FsError),
      pathExists st.fs (dp ++ [f₀]) = true →
      doFiles d dp files st = (st₂, e?) →
      countL (.createdFile d f₀) st₂.log = countL (.createdFile d f₀) st.log := by
  intro files
  induction files with
  | nil =>
    intro st st₂ e? hex h
    simp [doFiles] at h
    rw [← h.1]
  | cons g rest ih =>
    intro st st₂ e? hex h
    simp only [doFiles] at h
    cases hexg : pathExists st.fs (dp ++ [g]) with
    | true =>
      rw [hexg, if_pos rfl] at h
      exact ih st st₂ e? hex h
    | false =>
      rw [hexg] at h
      simp only [Bool.false_eq_true, if_false] at h
      cases how : openWrite st.fs (dp ++ [g]) with
      | error e =>
        rw [how] at h
        simp at h
        rw [← h.1]
      | ok fs₂ =>
        rw [how] at h
        have hnone : lookupFS st.fs (dp ++ [g]) = none := (pathExists_false_iff _ _).mp hexg
        have hset := openWrite_ok_of_none hnone how
        have hgf : g ≠ f₀ := by
          intro he
          subst he
          rw [hex] at hexg
          exact absurd hexg (by simp)
        have hex' : pathExists (setEntry st.fs (dp ++ [g]) (.file "")) (dp ++ [f₀]) = true := by
          rcases (pathExists_true_iff _ _).mp hex with ⟨v, hv⟩
          refine pathExists_of_lookup (v := v) ?_
          rw [lookupFS_setEntry]
          have hne : ¬ dp ++ [g] = dp ++ [f₀] := fun he => hgf (by simpa using he)
          rw [if_neg hne]
          exact hv
        rw [← hset] at hex'
        rw [ih _ st₂ e? hex' h]
        rw [countL_concat]
        have : ¬ LogLine.createdFile d g = LogLine.createdFile d f₀ := by simp [hgf]
        simp [this]

theorem doFiles_count (d : String) (dp : Path) :
    ∀ (files : List String) (st st₂ : St),
      doFiles d dp files st = (st₂, none) →
      ∀ f₀ ∈ files,
        countL (.createdFile d f₀) st₂.log =
          countL (.createdFile d f₀) st.log +
            (if pathExists st.fs (dp ++ [f₀]) then 0 else 1) := by
  intro files
  induction files with
  | nil => intro st st₂ h f₀ hf; simp at hf
  | cons g rest ih =>
    intro st st₂ h f₀ hf
    simp only [doFiles] at h
    cases hexg : pathExists st.fs (dp ++ [g]) with
    | true =>
      rw [hexg, if_pos rfl] at h
      by_cases hfg : f₀ = g
      · subst hfg
        rw [doFiles_count_zero d dp f₀ rest st st₂ none hexg h, hexg]
        simp
      · have hf' : f₀ ∈ rest := by
          rcases List.mem_cons.mp hf with hf | hf
          · exact absurd hf hfg
          · exact hf
        exact ih st st₂ h f₀ hf'
    | false =>
      rw [hexg] at h
      simp only [Bool.false_eq_true, if_false] at h
      cases how : openWrite st.fs (dp ++ [g]) with
      | error e => rw [how] at h; simp at h
      | ok fs₂ =>
        rw [how] at h
        have hnone : lookupFS st.fs (dp ++ [g]) = none := (pathExists_false_iff _ _).mp hexg
        have hset := openWrite_ok_of_none hnone how
        by_cases hfg : f₀ = g
        · subst hfg
          rw [hexg]
          simp only [Bool.false_eq_true, if_false]
          have hex' : pathExists fs₂ (dp ++ [f₀]) = true := by
            rw [hset]
            refine pathExists_of_lookup (v := .file "") ?_
            rw [lookupFS_setEntry]; simp
          rw [doFiles_count_zero d dp f₀ rest _ st₂ none hex' h]
          rw [countL_concat]
          simp
        · have hf' : f₀ ∈ rest := by
            rcases List.mem_cons.mp hf with hf | hf
            · exact absurd hf hfg
            · exact hf
          have hcnt := ih _ st₂ h f₀ hf'
          rw [hcnt]
          have hne : ¬ dp ++ [g] = dp ++ [f₀] := fun he => hfg (by simpa using he.symm)
          have hexeq : pathExists fs₂ (dp ++ [f₀]) = pathExists st.fs (dp ++ [f₀]) := by
            rw [hset]
            unfold pathExists
            rw [lookupFS_setEntry, if_neg hne]
          rw [hexeq]
          rw [countL_concat]
          have hnl : ¬ LogLine.createdFile d g = LogLine.createdFile d f₀ := by
            intro he
            exact hfg (by simpa using he.symm)
          simp [hnl]

theorem doFiles_mono (d : String) (dp : Path) (files : List String) (st st₂ : St)
    (e? : Option FsError) (h : doFiles d dp files st = (st₂, e?)) (p : Path)
    (hp : pathExists st.fs p = true) : pathExists st₂.fs p = true := by
  rcases (pathExists_true_iff _ _).mp hp with ⟨v, hv⟩
  exact pathExists_of_lookup (doFiles_frame d dp files st st₂ e? h p v hv)

/-! Lemmas about doEntry. -/

theorem not_isAncestor_of_longer {q p : Path} (h : p.length < q.length) : ¬ isAncestor q p := by
  intro ha
  have := isAncestor_length ha
  omega

theorem resolveDir_ne_nil (d : String) : resolveDir d ≠ [] := by
  simp [resolveDir]

theorem makedirs_preserves_other {fs fs₂ : FS} {key q : Path}
    (h : makedirs fs key = .ok fs₂) (hq : ¬ isAncestor q key) :
    lookupFS fs₂ q = lookupFS fs q := by
  rcases makedirsAux_cases key fs [] fs₂ h q with h' | ⟨_, _, h3⟩
  · exact h'
  · simp at h3
    exact absurd h3 hq

theorem doEntry_frame (st : St) (ent : String × List String) (st₂ : St) (e? : Option FsError)
    (h : doEntry st ent = (st₂, e?)) (p : Path) (v : Entry)
    (hp : lookupFS st.fs p = some v) : lookupFS st₂.fs p = some v := by
  simp only [doEntry] at h
  cases hex : pathExists st.fs (resolveDir ent.1) with
  | true =>
    rw [hex, if_pos rfl] at h
    exact doFiles_frame _ _ _ _ _ _ h p v hp
  | false =>
    rw [hex] at h
    simp only [Bool.false_eq_true, if_false] at h
    cases hmk : makedirs st.fs (resolveDir ent.1) with
    | error e =>
      rw [hmk] at h
      simp at h
      rw [← h.1]; exact hp
    | ok fs₂ =>
      rw [hmk] at h
      exact doFiles_frame _ _ _ _ _ _ h p v (makedirsAux_frame _ _ _ _ hmk p v hp)

theorem doEntry_mono (st : St) (ent : String × List String) (st₂ : St) (e? : Option FsError)
    (h : doEntry st ent = (st₂, e?)) (p : Path)
    (hp : pathExists st.fs p = true) : pathExists st₂.fs p = true := by
  rcases (pathExists_true_iff _ _).mp hp with ⟨v, hv⟩
  exact pathExists_of_lookup (doEntry_frame st ent st₂ e? h p v hv)

theorem doEntry_cases (st : St) (ent : String × List String) (st₂ : St) (e? : Option FsError)
    (h : doEntry st ent = (st₂, e?)) (q : Path) :
    lookupFS st₂.fs q = lookupFS st.fs q ∨
      (lookupFS st.fs q = none ∧
        ((lookupFS st₂.fs q = some .dir ∧ isAncestor q (resolveDir ent.1) ∧
            lookupFS st.fs (resolveDir ent.1) = none) ∨
         (lookupFS st₂.fs q = some (.file "") ∧ ∃ f ∈ ent.2, q = resolveDir ent.1 ++ [f]))) := by
  simp only [doEntry] at h
  cases hex : pathExists st.fs (resolveDir ent.1) with
  | true =>
    rw [hex, if_pos rfl] at h
    rcases doFiles_cases _ _ _ _ _ _ h q with h' | ⟨h1, h2, hf⟩
    · exact Or.inl h'
    · exact Or.inr ⟨h1, Or.inr ⟨h2, hf⟩⟩
  | false =>
    rw [hex] at h
    simp only [Bool.false_eq_true, if_false] at h
    have hkey : lookupFS st.fs (resolveDir ent.1) = none := (pathExists_false_iff _ _).mp hex
    cases hmk : makedirs st.fs (resolveDir ent.1) with
    | error e =>
      rw [hmk] at h
      simp at h
      rw [← h.1]
      exact Or.inl rfl
    | ok fs₂ =>
      rw [hmk] at h
      rcases doFiles_cases _ _ _ _ _ _ h q with h' | ⟨h1, h2, hf⟩
      · rcases makedirsAux_cases _ _ _ _ hmk q with h'' | ⟨g1, g2, g3⟩
        · exact Or.inl (by rw [h']; exact h'')
        · simp at g3
          exact Or.inr ⟨g1, Or.inl ⟨by rw [h']; exact g2, g3, hkey⟩⟩
      · rcases makedirsAux_cases _ _ _ _ hmk q with h'' | ⟨g1, g2, g3⟩
        · rw [h1] at h''
          exact Or.inr ⟨h''.symm, Or.inr ⟨h2, hf⟩⟩
        · rw [h1] at g2
          exact absurd g2 (by simp)

theorem doEntry_log_shape (st : St) (ent : String × List String) (st₂ : St) (e? : Option FsError)
    (h : doEntry st ent = (st₂, e?)) :
    ∃ L, st₂.log = st.log ++ L ∧
      ∀ x ∈ L, x = LogLine.createdDir ent.1 ∨ ∃ f ∈ ent.2, x = LogLine.createdFile ent.1 f := by
  simp only [doEntry] at h
  cases hex : pathExists st.fs (resolveDir ent.1) with
  | true =>
    rw [hex, if_pos rfl] at h
    rcases doFiles_log_shape _ _ _ _ _ _ h with ⟨L, hL, hx⟩
    exact ⟨L, hL, fun x hxL => Or.inr (hx x hxL)⟩
  | false =>
    rw [hex] at h
    simp only [Bool.false_eq_true, if_false] at h
    cases hmk : makedirs st.fs (resolveDir ent.1) with
    | error e =>
      rw [hmk] at h
      simp at h
      exact ⟨[], by rw [← h.1]; simp, by simp⟩
    | ok fs₂ =>
      rw [hmk] at h
      rcases doFiles_log_shape _ _ _ _ _ _ h with ⟨L, hL, hx⟩
      refine ⟨LogLine.createdDir ent.1 :: L, ?_, fun x hxL => ?_⟩
      · simp only [hL]
        simp
      · rcases List.mem_cons.mp hxL with he | hxL
        · exact Or.inl he
        · exact Or.inr (hx x hxL)

theorem doEntry_complete (st : St) (ent : String × List String) (st₂ : St)
    (h : doEntry st ent = (st₂, none)) :
    pathExists st₂.fs (resolveDir ent.1) = true ∧
      ∀ f ∈ ent.2, pathExists st₂.fs (resolveDir ent.1 ++ [f]) = true := by
  simp only [doEntry] at h
  cases hex : pathExists st.fs (resolveDir ent.1) with
  | true =>
    rw [hex, if_pos rfl] at h
    exact ⟨doFiles_mono _ _ _ _ _ _ h _ hex, doFiles_exists_after _ _ _ _ _ h⟩
  | false =>
    rw [hex] at h
    simp only [Bool.false_eq_true, if_false] at h
    cases hmk : makedirs st.fs (resolveDir ent.1) with
    | error e => rw [hmk] at h; simp at h
    | ok fs₂ =>
      rw [hmk] at h
      have hdir : lookupFS fs₂ (resolveDir ent.1) = some .dir := by
        refine makedirsAux_chain _ _ _ _ hmk _ ?_ ?_
        · simpa using isAncestor_refl (resolveDir_ne_nil ent.1)
        · simp [resolveDir]
      exact ⟨doFiles_mono _ _ _ _ _ _ h _ (pathExists_of_lookup hdir),
        doFiles_exists_after _ _ _ _ _ h⟩

theorem doEntry_skip (st : St) (ent : String × List String)
    (hdir : pathExists st.fs (resolveDir ent.1) = true)
    (hfiles : ∀ f ∈ ent.2, pathExists st.fs (resolveDir ent.1 ++ [f]) = true) :
    doEntry st ent = (st, none) := by
  simp only [doEntry]
  rw [hdir, if_pos rfl]
  exact doFiles_skip _ _ _ _ hfiles

theorem doEntry_counts (st : St) (ent : String × List String) (st₂ : St)
    (h : doEntry st ent = (st₂, none)) :
    countL (.createdDir ent.1) st₂.log =
      countL (.createdDir ent.1) st.log +
        (if pathExists st.fs (resolveDir ent.1) then 0 else 1) ∧
    ∀ f₀ ∈ ent.2, countL (.createdFile ent.1 f₀) st₂.log =
      countL (.createdFile ent.1 f₀) st.log +
        (if pathExists st.fs (resolveDir ent.1 ++ [f₀]) then 0 else 1) := by
  simp only [doEntry] at h
  cases hex : pathExists st.fs (resolveDir ent.1) with
  | true =>
    rw [hex, if_pos rfl] at h
    constructor
    · rcases doFiles_log_shape _ _ _ _ _ _ h with ⟨L, hL, hx⟩
      rw [hL, countL_append, countL_eq_zero (x := .createdDir ent.1) (l := L) ?_]
      · simp
      · intro y hy
        rcases hx y hy with ⟨f, hf, he⟩
        simp [he]
    · intro f₀ hf₀
      exact doFiles_count _ _ _ _ _ h f₀ hf₀
  | false =>
    rw [hex] at h
    simp only [Bool.false_eq_true, if_false] at h
    cases hmk : makedirs st.fs (resolveDir ent.1) with
    | error e => rw [hmk] at h; simp at h
    | ok fs₂ =>
      rw [hmk] at h
      constructor
      · rcases doFiles_log_shape _ _ _ _ _ _ h with ⟨L, hL, hx⟩
        simp only at hL
        rw [hL, countL_append, countL_eq_zero (x := .createdDir ent.1) (l := L) ?_]
        · rw [countL_concat]
          simp
        · intro y hy
          rcases hx y hy with ⟨f, hf, he⟩
          simp [he]
      · intro f₀ hf₀
        have hcnt := doFiles_count _ _ _ _ _ h f₀ hf₀
        simp only at hcnt
        rw [hcnt, countL_concat]
        have hexeq : pathExists fs₂ (resolveDir ent.1 ++ [f₀]) =
            pathExists st.fs (resolveDir ent.1 ++ [f₀]) := by
          unfold pathExists
          rw [makedirs_preserves_other hmk (not_isAncestor_of_longer (by simp))]
        rw [hexeq]
        simp

theorem doEntry_count_preserve (st : St) (ent : String × List String) (st₂ : St)
    (e? : Option FsError) (h : doEntry st ent = (st₂, e?)) (d₀ : String) (hne : ent.1 ≠ d₀) :
    countL (.createdDir d₀) st₂.log = countL (.createdDir d₀) st.log ∧
    ∀ f₀, countL (.createdFile d₀ f₀) st₂.log = countL (.createdFile d₀ f₀) st.log := by
  rcases doEntry_log_shape _ _ _ _ h with ⟨L, hL, hx⟩
  constructor
  · rw [hL, countL_append, countL_eq_zero (x := .createdDir d₀) (l := L) ?_]
    · simp
    · intro y hy
      rcases hx y hy with he | ⟨f, hf, he⟩ <;> simp [he, hne]
  · intro f₀
    rw [hL, countL_append, countL_eq_zero (x := .createdFile d₀ f₀) (l := L) ?_]
    · simp
    · intro y hy
      rcases hx y hy with he | ⟨f, hf, he⟩ <;> simp [he, hne]

/-! Lemmas about runEntries. -/

theorem runEntries_frame :
    ∀ (E : List (String × List String)) (st st₂ : St) (e? : Option FsError),
      runEntries st E = (st₂, e?) →
      ∀ (p : Path) (v : Entry), lookupFS st.fs p = some v → lookupFS st₂.fs p = some v := by
  intro E
  induction E with
  | nil =>
    intro st st₂ e? h p v hp
    simp [runEntries] at h
    rw [← h.1]; exact hp
  | cons ent₀ rest ih =>
    intro st st₂ e? h p v hp
    simp only [runEntries] at h
    rcases hde : doEntry st ent₀ with ⟨st₁, e₁⟩
    rw [hde] at h
    cases e₁ with
    | none =>
      simp only at h
      exact ih st₁ st₂ e? h p v (doEntry_frame st ent₀ st₁ none hde p v hp)
    | some e =>
      injection h with h1 h2
      rw [← h1]
      exact doEntry_frame st ent₀ st₁ (some e) hde p v hp

theorem runEntries_mono (E : List (String × List String)) (st st₂ : St) (e? : Option FsError)
    (h : runEntries st E = (st₂, e?)) (p : Path)
    (hp : pathExists st.fs p = true) : pathExists st₂.fs p = true := by
  rcases (pathExists_true_iff _ _).mp hp with ⟨v, hv⟩
  exact pathExists_of_lookup (runEntries_frame E st st₂ e? h p v hv)

theorem runEntries_complete :
    ∀ (E : List (String × List String)) (st st₂ : St),
      runEntries st E = (st₂, none) →
      ∀ ent ∈ E, pathExists st₂.fs (resolveDir ent.1) = true ∧
        ∀ f ∈ ent.2, pathExists st₂.fs (resolveDir ent.1 ++ [f]) = true := by
  intro E
  induction E with
  | nil => intro st st₂ h ent hent; simp at hent
  | cons ent₀ rest ih =>
    intro st st₂ h ent hent
    simp only [runEntries] at h
    rcases hde : doEntry st ent₀ with ⟨st₁, e₁⟩
    rw [hde] at h
    cases e₁ with
    | none =>
      simp only at h
      rcases List.mem_cons.mp hent with he | hent'
      · subst he
        rcases doEntry_complete st ent st₁ hde with ⟨h1, h2⟩
        exact ⟨runEntries_mono rest st₁ st₂ none h _ h1,
          fun f hf => runEntries_mono rest st₁ st₂ none h _ (h2 f hf)⟩
      · exact ih st₁ st₂ h ent hent'
    | some e => simp at h

theorem runEntries_skip :
    ∀ (E : List (String × List String)) (st : St),
      (∀ ent ∈ E, pathExists st.fs (resolveDir ent.1) = true ∧
        ∀ f ∈ ent.2, pathExists st.fs (resolveDir ent.1 ++ [f]) = true) →
      runEntries st E = (st, none) := by
  intro E
  induction E with
  | nil => intro st h; simp [runEntries]
  | cons ent₀ rest ih =>
    intro st h
    simp only [runEntries]
    rcases h ent₀ (by simp) with ⟨h1, h2⟩
    rw [doEntry_skip st ent₀ h1 h2]
    exact ih st (fun ent hent => h ent (by simp [hent]))

theorem runEntries_log_shape :
    ∀ (E : List (String × List String)) (st st₂ : St) (e? : Option FsError),
      runEntries st E = (st₂, e?) →
      ∃ L, st₂.log = st.log ++ L ∧
        ∀ x ∈ L, ∃ b ∈ E, x = LogLine.createdDir b.1 ∨
          ∃ f ∈ b.2, x = LogLine.createdFile b.1 f := by
  intro E
  induction E with
  | nil =>
    intro st st₂ e? h
    simp [runEntries] at h
    exact ⟨[], by rw [← h.1]; simp, by simp⟩
  | cons ent₀ rest ih =>
    intro st st₂ e? h
    simp only [runEntries] at h
    rcases hde : doEntry st ent₀ with ⟨st₁, e₁⟩
    rw [hde] at h
    rcases doEntry_log_shape st ent₀ st₁ e₁ hde with ⟨L₀, hL₀, hx₀⟩
    cases e₁ with
    | none =>
      simp only at h
      rcases ih st₁ st₂ e? h with ⟨L, hL, hx⟩
      refine ⟨L₀ ++ L, by rw [hL, hL₀, List.append_assoc], fun x hxm => ?_⟩
      rcases List.mem_append.mp hxm with hx0 | hx1
      · rcases hx₀ x hx0 with he | ⟨f, hf, he⟩
        · exact ⟨ent₀, by simp, Or.inl he⟩
        · exact ⟨ent₀, by simp, Or.inr ⟨f, hf, he⟩⟩
      · rcases hx x hx1 with ⟨b, hb, he⟩
        exact ⟨b, by simp [hb], he⟩
    | some e =>
      injection h with h1 h2
      refine ⟨L₀, by rw [← h1, hL₀], fun x hx0 => ?_⟩
      rcases hx₀ x hx0 with he | ⟨f, hf, he⟩
      · exact ⟨ent₀, by simp, Or.inl he⟩
      · exact ⟨ent₀, by simp, Or.inr ⟨f, hf, he⟩⟩

theorem runEntries_count_preserve (E : List (String × List String)) (st st₂ : St)
    (e? : Option FsError) (h : runEntries st E = (st₂, e?)) (d₀ : String)
    (hk : ∀ ent ∈ E, ent.1 ≠ d₀) :
    countL (.createdDir d₀) st₂.log = countL (.createdDir d₀) st.log ∧
    ∀ f₀, countL (.createdFile d₀ f₀) st₂.log = countL (.createdFile d₀ f₀) st.log := by
  rcases runEntries_log_shape E st st₂ e? h with ⟨L, hL, hx⟩
  constructor
  · rw [hL, countL_append, countL_eq_zero (x := .createdDir d₀) (l := L) ?_]
    · simp
    · intro y hy
      rcases hx y hy with ⟨b, hb, he | ⟨f, hf, he⟩⟩ <;> simp [he, hk b hb]
  · intro f₀
    rw [hL, countL_append, countL_eq_zero (x := .createdFile d₀ f₀) (l := L) ?_]
    · simp
    · intro y hy
      rcases hx y hy with ⟨b, hb, he | ⟨f, hf, he⟩⟩ <;> simp [he, hk b hb]

theorem runEntries_counts :
    ∀ (E : List (String × List String)) (st st₂ : St),
      E.Pairwise entSep → runEntries st E = (st₂, none) →
      ∀ ent ∈ E,
        countL (.createdDir ent.1) st₂.log =
          countL (.createdDir ent.1) st.log +
            (if pathExists st.fs (resolveDir ent.1) then 0 else 1) ∧
        ∀ f₀ ∈ ent.2, countL (.createdFile ent.1 f₀) st₂.log =
          countL (.createdFile ent.1 f₀) st.log +
            (if pathExists st.fs (resolveDir ent.1 ++ [f₀]) then 0 else 1) := by
  intro E
  induction E with
  | nil => intro st st₂ hP h ent hent; simp at hent
  | cons ent₀ rest ih =>
    intro st st₂ hP h ent hent
    rw [List.pairwise_cons] at hP
    simp only [runEntries] at h
    rcases hde : doEntry st ent₀ with ⟨st₁, e₁⟩
    rw [hde] at h
    cases e₁ with
    | some e => simp at h
    | none =>
      simp only at h
      rcases List.mem_cons.mp hent with he | hent'
      · subst he
        rcases doEntry_counts st ent st₁ hde with ⟨hc1, hc2⟩
        have hk : ∀ b ∈ rest, b.1 ≠ ent.1 := fun b hb => ((hP.1 b hb).1).symm
        rcases runEntries_count_preserve rest st₁ st₂ none h ent.1 hk with ⟨hz1, hz2⟩
        exact ⟨by rw [hz1, hc1], fun f₀ hf₀ => by rw [hz2 f₀, hc2 f₀ hf₀]⟩
      · have hsep := hP.1 ent hent'
        have hpres : ∀ q : Path, ¬ isAncestor q (resolveDir ent₀.1) →
            (∀ f ∈ ent₀.2, resolveDir ent₀.1 ++ [f] ≠ q) →
            lookupFS st₁.fs q = lookupFS st.fs q := by
          intro q h1 h2
          rcases doEntry_cases st ent₀ st₁ none hde q with heq | ⟨hn, ⟨_, ha, _⟩ | ⟨_, f, hf, he⟩⟩
          · exact heq
          · exact absurd ha h1
          · exact absurd he.symm (h2 f hf)
        have hql : lookupFS st₁.fs (resolveDir ent.1) = lookupFS st.fs (resolveDir ent.1) :=
          hpres _ hsep.2.1 hsep.2.2.1
        have hqf : ∀ f₀ ∈ ent.2,
            lookupFS st₁.fs (resolveDir ent.1 ++ [f₀]) =
              lookupFS st.fs (resolveDir ent.1 ++ [f₀]) := by
          intro f₀ hf₀
          refine hpres _ (hsep.2.2.2.1 f₀ hf₀) ?_
          intro f hf
          exact hsep.2.2.2.2 f hf f₀ hf₀
        rcases doEntry_count_preserve st ent₀ st₁ none hde ent.1 (hsep.1) with ⟨hz1, hz2⟩
        rcases ih st₁ st₂ hP.2 h ent hent' with ⟨hc1, hc2⟩
        constructor
        · rw [hc1, hz1]
          unfold pathExists
          rw [hql]
        · intro f₀ hf₀
          rw [hc2 f₀ hf₀, hz2 f₀]
          unfold pathExists
          rw [hqf f₀ hf₀]

theorem runEntries_err_split :
    ∀ (E : List (String × List String)) (st st₂ : St) (e : FsError),
      runEntries st E = (st₂, some e) →
      ∃ pre ent post st₁, E = pre ++ ent :: post ∧
        runEntries st pre = (st₁, none) ∧ doEntry st₁ ent = (st₂, some e) := by
  intro E
  induction E with
  | nil => intro st st₂ e h; simp [runEntries] at h
  | cons ent₀ rest ih =>
    intro st st₂ e h
    simp only [runEntries] at h
    rcases hde : doEntry st ent₀ with ⟨st₁', e₁⟩
    rw [hde] at h
    cases e₁ with
    | some e' =>
      injection h with h1 h2
      refine ⟨[], ent₀, rest, st, by simp, by simp [runEntries], ?_⟩
      rw [hde, h1, h2]
    | none =>
      simp only at h
      rcases ih st₁' st₂ e h with ⟨pre, ent, post, st₁, hsplit, hrun, hfail⟩
      refine ⟨ent₀ :: pre, ent, post, st₁, by simp [hsplit], ?_, hfail⟩
      simp only [runEntries]
      rw [hde]
      exact hrun

/-! Characterization of the final filesystem state of a successful run. -/

theorem Inv_base (init : FS) (E : List (String × List String)) (lg : List LogLine) :
    Inv init E ⟨init, lg⟩ := by
  refine ⟨fun p v hp => hp, fun p hp => Or.inl hp, fun p hp hf => ?_, fun p hp hd => ?_⟩
  · rw [hp] at hf; exact absurd hf (by simp)
  · rw [hp] at hd; exact absurd hd (by simp)

theorem Inv_preserve {init : FS} {E : List (String × List String)} {st : St}
    {ent : String × List String} {st₁ : St} (hm : ent ∈ E)
    (hde : doEntry st ent = (st₁, none)) (hInv : Inv init E st) : Inv init E st₁ := by
  obtain ⟨ha, ha2, hb, hc⟩ := hInv
  refine ⟨fun p v hp => doEntry_frame st ent st₁ none hde p v (ha p v hp),
    fun p hp => ?_, fun p hp hf => ?_, fun p hp hd => ?_⟩
  · rcases doEntry_cases st ent st₁ none hde p with heq | ⟨hn, ⟨h1, _, _⟩ | ⟨h1, _⟩⟩
    · rw [heq]; exact ha2 p hp
    · exact Or.inr (Or.inl h1)
    · exact Or.inr (Or.inr h1)
  · rcases doEntry_cases st ent st₁ none hde p with heq | ⟨hn, ⟨h1, _, _⟩ | ⟨h1, f, hf', he⟩⟩
    · rw [heq] at hf; exact hb p hp hf
    · rw [h1] at hf; exact absurd hf (by simp)
    · exact ⟨ent, hm, f, hf', he⟩
  · -- a created directory has all its nonempty ancestors present as directories
    intro a hanc
    simp only [doEntry] at hde
    cases hex : pathExists st.fs (resolveDir ent.1) with
    | true =>
      rw [hex, if_pos rfl] at hde
      rcases doFiles_cases _ _ _ _ _ _ hde p with heq | ⟨_, h1, _⟩
      · rw [heq] at hd
        exact doFiles_frame _ _ _ _ _ _ hde a .dir (hc p hp hd a hanc)
      · rw [h1] at hd; exact absurd hd (by simp)
    | false =>
      rw [hex] at hde
      simp only [Bool.false_eq_true, if_false] at hde
      cases hmk : makedirs st.fs (resolveDir ent.1) with
      | error e => rw [hmk] at hde; simp at hde
      | ok fs₂ =>
        rw [hmk] at hde
        rcases doFiles_cases _ _ _ _ _ _ hde p with heq | ⟨_, h1, _⟩
        · rw [heq] at hd
          rcases makedirsAux_cases _ _ _ _ hmk p with heq' | ⟨g1, g2, g3⟩
          · rw [heq'] at hd
            have hstar := hc p hp hd a hanc
            exact doFiles_frame _ _ _ _ _ _ hde a .dir
              (makedirsAux_frame _ _ _ _ hmk a .dir hstar)
          · simp only [List.nil_append] at g3
            have hanck : isAncestor a (resolveDir ent.1) := isAncestor_trans hanc g3
            have hfs₂ : lookupFS fs₂ a = some .dir := by
              refine makedirsAux_chain _ _ _ _ hmk a (by simpa using hanck) ?_
              simpa using List.length_pos.mpr hanc.1
            exact doFiles_frame _ _ _ _ _ _ hde a .dir hfs₂
        · rw [h1] at hd; exact absurd hd (by simp)

theorem runEntries_dir_create :
    ∀ (rest E : List (String × List String)) (init : FS) (st st₂ : St),
      rest ⊆ E → FilesNotDirs E → Inv init E st →
      runEntries st rest = (st₂, none) →
      ∀ (q : Path) (ent : String × List String), ent ∈ rest →
        isAncestor q (resolveDir ent.1) → lookupFS st.fs (resolveDir ent.1) = none →
        lookupFS st₂.fs q = some .dir := by
  intro rest
  induction rest with
  | nil => intro E init st st₂ _ _ _ h q ent hent; simp at hent
  | cons ent₀ rest' ih =>
    intro E init st st₂ hsub hdisj hInv h q ent hent hanc hkey
    simp only [runEntries] at h
    rcases hde : doEntry st ent₀ with ⟨st₁, e₁⟩
    rw [hde] at h
    cases e₁ with
    | some e => simp at h
    | none =>
      simp only at h
      have hm₀ : ent₀ ∈ E := hsub (by simp)
      have hsub' : rest' ⊆ E := fun x hx => hsub (by simp [hx])
      rcases List.mem_cons.mp hent with he | hent'
      · -- the entry whose chain covers q is processed first
        subst he
        have hex : pathExists st.fs (resolveDir ent.1) = false :=
          (pathExists_false_iff _ _).mpr hkey
        simp only [doEntry] at hde
        rw [hex] at hde
        simp only [Bool.false_eq_true, if_false] at hde
        cases hmk : makedirs st.fs (resolveDir ent.1) with
        | error e => rw [hmk] at hde; simp at hde
        | ok fs₂ =>
          rw [hmk] at hde
          have hq₂ : lookupFS fs₂ q = some .dir := by
            refine makedirsAux_chain _ _ _ _ hmk q (by simpa using hanc) ?_
            simpa using List.length_pos.mpr hanc.1
          exact runEntries_frame rest' st₁ st₂ none h q .dir
            (doFiles_frame _ _ _ _ _ _ hde q .dir hq₂)
      · -- the entry is processed later
        have hInv₁ : Inv init E st₁ := Inv_preserve hm₀ hde hInv
        cases hk₁ : lookupFS st₁.fs (resolveDir ent.1) with
        | none => exact ih E init st₁ st₂ hsub' hdisj hInv₁ h q ent hent' hanc hk₁
        | some v =>
          have hkeyinit : lookupFS init (resolveDir ent.1) = none := by
            cases hi : lookupFS init (resolveDir ent.1) with
            | none => rfl
            | some w =>
              rw [hInv.1 _ w hi] at hkey
              exact absurd hkey (by simp)
          rcases doEntry_cases st ent₀ st₁ none hde (resolveDir ent.1) with
            heq | ⟨hn, ⟨h1, _, _⟩ | ⟨h1, _⟩⟩
          · rw [heq, hkey] at hk₁; exact absurd hk₁ (by simp)
          · -- the directory path of ent was created as an intermediate directory:
            -- all its ancestors, in particular q, are directories already
            have hqdir := hInv₁.2.2.2 _ hkeyinit h1 q hanc
            exact runEntries_frame rest' st₁ st₂ none h q .dir hqdir
          · -- it cannot have been created as a file: file targets are never
            -- ancestors of directory paths of the table
            have hft : FileTargetCond E (resolveDir ent.1) :=
              hInv₁.2.2.1 _ hkeyinit h1
            rcases hft with ⟨b, hb, f, hf, he⟩
            have := hdisj b hb f hf ent (hsub hent)
            rw [← he] at this
            exact absurd (isAncestor_refl (resolveDir_ne_nil ent.1)) this

theorem runEntries_file_create :
    ∀ (rest E : List (String × List String)) (st st₂ : St),
      rest ⊆ E → FilesNotDirs E →
      runEntries st rest = (st₂, none) →
      ∀ ent ∈ rest, ∀ f ∈ ent.2,
        (lookupFS st.fs (resolveDir ent.1 ++ [f]) = none ∨
         lookupFS st.fs (resolveDir ent.1 ++ [f]) = some (.file "")) →
        lookupFS st₂.fs (resolveDir ent.1 ++ [f]) = some (.file "") := by
  intro rest
  induction rest with
  | nil => intro E st st₂ _ _ h ent hent; simp at hent
  | cons ent₀ rest' ih =>
    intro E st st₂ hsub hdisj h ent hent f hf hpre
    simp only [runEntries] at h
    rcases hde : doEntry st ent₀ with ⟨st₁, e₁⟩
    rw [hde] at h
    cases e₁ with
    | some e => simp at h
    | none =>
      simp only at h
      have hm₀ : ent₀ ∈ E := hsub (by simp)
      have hsub' : rest' ⊆ E := fun x hx => hsub (by simp [hx])
      rcases List.mem_cons.mp hent with he | hent'
      · subst he
        simp only [doEntry] at hde
        cases hex : pathExists st.fs (resolveDir ent.1) with
        | true =>
          rw [hex, if_pos rfl] at hde
          exact runEntries_frame rest' st₁ st₂ none h _ _
            (doFiles_creates _ _ _ _ _ hde f hf hpre)
        | false =>
          rw [hex] at hde
          simp only [Bool.false_eq_true, if_false] at hde
          cases hmk : makedirs st.fs (resolveDir ent.1) with
          | error e => rw [hmk] at hde; simp at hde
          | ok fs₂ =>
            rw [hmk] at hde
            have hpre₂ : lookupFS fs₂ (resolveDir ent.1 ++ [f]) = none ∨
                lookupFS fs₂ (resolveDir ent.1 ++ [f]) = some (.file "") := by
              rcases makedirsAux_cases _ _ _ _ hmk (resolveDir ent.1 ++ [f]) with
                heq | ⟨_, _, g3⟩
              · rw [heq]; exact hpre
              · simp only [List.nil_append] at g3
                exact absurd g3 (hdisj ent (hsub hent) f hf ent (hsub hent))
            exact runEntries_frame rest' st₁ st₂ none h _ _
              (doFiles_creates _ _ _ _ _ hde f hf hpre₂)
      · have hpre₁ : lookupFS st₁.fs (resolveDir ent.1 ++ [f]) = none ∨
            lookupFS st₁.fs (resolveDir ent.1 ++ [f]) = some (.file "") := by
          rcases doEntry_cases st ent₀ st₁ none hde (resolveDir ent.1 ++ [f]) with
            heq | ⟨hn, ⟨_, ha, _⟩ | ⟨h1, _⟩⟩
          · rw [heq]; exact hpre
          · exact absurd ha (hdisj ent (hsub hent) f hf ent₀ hm₀)
          · exact Or.inr h1
        exact ih E st₁ st₂ hsub' hdisj h ent hent' f hf hpre₁

theorem runEntries_no_junk :
    ∀ (rest : List (String × List String)) (st st₂ : St),
      runEntries st rest = (st₂, none) →
      ∀ q : Path, lookupFS st.fs q = none →
        (¬ ∃ ent ∈ rest, isAncestor q (resolveDir ent.1) ∧
          lookupFS st.fs (resolveDir ent.1) = none) →
        (¬ ∃ ent ∈ rest, ∃ f ∈ ent.2, q = resolveDir ent.1 ++ [f]) →
        lookupFS st₂.fs q = none := by
  intro rest
  induction rest with
  | nil =>
    intro st st₂ h q hq _ _
    simp [runEntries] at h
    rw [← h]; exact hq
  | cons ent₀ rest' ih =>
    intro st st₂ h q hq hnd hnf
    simp only [runEntries] at h
    rcases hde : doEntry st ent₀ with ⟨st₁, e₁⟩
    rw [hde] at h
    cases e₁ with
    | some e => simp at h
    | none =>
      simp only at h
      have hq₁ : lookupFS st₁.fs q = none := by
        rcases doEntry_cases st ent₀ st₁ none hde q with heq | ⟨hn, ⟨_, ha, hk⟩ | ⟨_, f, hf, he⟩⟩
        · rw [heq]; exact hq
        · exact absurd ⟨ent₀, by simp, ha, hk⟩ hnd
        · exact absurd ⟨ent₀, by simp, f, hf, he⟩ hnf
      refine ih st₁ st₂ h q hq₁ ?_ ?_
      · rintro ⟨ent, hent, hanc, hkey₁⟩
        cases hk : lookupFS st.fs (resolveDir ent.1) with
        | none => exact hnd ⟨ent, by simp [hent], hanc, hk⟩
        | some v =>
          rw [doEntry_frame st ent₀ st₁ none hde _ v hk] at hkey₁
          exact absurd hkey₁ (by simp)
      · rintro ⟨ent, hent, f, hf, he⟩
        exact hnf ⟨ent, by simp [hent], f, hf, he⟩

theorem runEntries_char (E : List (String × List String)) (hdisj : FilesNotDirs E)
    (fs : FS) (lg : List LogLine) (st₂ : St)
    (h : runEntries ⟨fs, lg⟩ E = (st₂, none)) (q : Path) :
    lookupFS st₂.fs q = expectedEntry E fs q := by
  unfold expectedEntry
  cases hq : lookupFS fs q with
  | some v => exact runEntries_frame E ⟨fs, lg⟩ st₂ none h q v hq
  | none =>
    by_cases hdc : DirCreatedCond E fs q
    · rw [if_pos hdc]
      rcases hdc with ⟨ent, hent, hanc, hkey⟩
      exact runEntries_dir_create E E fs ⟨fs, lg⟩ st₂ (List.Subset.refl E) hdisj
        (Inv_base fs E lg) h q ent hent hanc hkey
    · rw [if_neg hdc]
      by_cases hft : FileTargetCond E q
      · rw [if_pos hft]
        rcases hft with ⟨ent, hent, f, hf, he⟩
        subst he
        exact runEntries_file_create E E ⟨fs, lg⟩ st₂ (List.Subset.refl E) hdisj h
          ent hent f hf (Or.inl hq)
      · rw [if_neg hft]
        exact runEntries_no_junk E ⟨fs, lg⟩ st₂ h q hq hdc hft

/-! Bridge lemmas between create_structure and runEntries. -/

theorem create_structure_fs (fs : FS) :
    (create_structure fs).fs = (runEntries ⟨fs, []⟩ directories).1.fs := by
  unfold create_structure
  rcases hr : runEntries ⟨fs, []⟩ directories with ⟨st, e?⟩
  cases e? <;> simp

theorem create_structure_err (fs : FS) :
    (create_structure fs).err = (runEntries ⟨fs, []⟩ directories).2 := by
  unfold create_structure
  rcases hr : runEntries ⟨fs, []⟩ directories with ⟨st, e?⟩
  cases e? <;> simp

theorem create_structure_log_ok (fs : FS)
    (h : (runEntries ⟨fs, []⟩ directories).2 = none) :
    (create_structure fs).log =
      (runEntries ⟨fs, []⟩ directories).1.log ++ [LogLine.summary] := by
  unfold create_structure
  rcases hr : runEntries ⟨fs, []⟩ directories with ⟨st, e?⟩
  rw [hr] at h
  simp only at h
  subst h
  simp

theorem runEntries_of_err_none (fs : FS) (lg : List LogLine)
    (E : List (String × List String)) (h : (runEntries ⟨fs, lg⟩ E).2 = none) :
    runEntries ⟨fs, lg⟩ E = ((runEntries ⟨fs, lg⟩ E).1, none) := by
  rcases hr : runEntries ⟨fs, lg⟩ E with ⟨st, e?⟩
  rw [hr] at h
  simp only at h
  subst h
  rfl

/-! Transfer lemmas along permutations of the specification table. -/

theorem specPerm_symm {e₁ e₂ : List (String × List String)} (h : SpecPerm e₁ e₂) :
    SpecPerm e₂ e₁ := List.Perm.symm h

theorem specPerm_mem {e₁ e₂ : List (String × List String)} (h : SpecPerm e₁ e₂)
    {ent : String × List String} (hm : ent ∈ e₂) :
    ∃ fls, (ent.1, fls) ∈ e₁ ∧ ∀ f, f ∈ fls ↔ f ∈ ent.2 := by
  have hmm : (ent.1, (ent.2 : Multiset String)) ∈
      e₂.map (fun x => (x.1, (x.2 : Multiset String))) := by
    exact List.mem_map_of_mem _ hm
  have hmm' := (List.Perm.mem_iff h).mpr hmm
  rcases List.mem_map.mp hmm' with ⟨x, hx, hxe⟩
  have h12 := Prod.mk.inj hxe
  have h1 : x.1 = ent.1 := h12.1
  have h2 : (x.2 : Multiset String) = (ent.2 : Multiset String) := h12.2
  have hperm : List.Perm x.2 ent.2 := Multiset.coe_eq_coe.mp h2
  refine ⟨x.2, ?_, fun f => List.Perm.mem_iff hperm⟩
  have : (ent.1, x.2) = x := by
    rw [← h1]
  rw [this]
  exact hx

theorem filesNotDirs_perm {e₁ e₂ : List (String × List String)} (h : SpecPerm e₁ e₂)
    (hd : FilesNotDirs e₁) : FilesNotDirs e₂ := by
  intro ent hent f hf ent' hent'
  rcases specPerm_mem h hent with ⟨fls, hfls, hiff⟩
  rcases specPerm_mem h hent' with ⟨fls', hfls', _⟩
  exact hd (ent.1, fls) hfls f ((hiff f).mpr hf) (ent'.1, fls') hfls'

theorem dirCreatedCond_perm {e₁ e₂ : List (String × List String)} (h : SpecPerm e₁ e₂)
    (init : FS) (q : Path) (hc : DirCreatedCond e₂ init q) : DirCreatedCond e₁ init q := by
  rcases hc with ⟨ent, hent, hanc, hkey⟩
  rcases specPerm_mem h hent with ⟨fls, hfls, _⟩
  exact ⟨(ent.1, fls), hfls, hanc, hkey⟩

theorem fileTargetCond_perm {e₁ e₂ : List (String × List String)} (h : SpecPerm e₁ e₂)
    (q : Path) (hc : FileTargetCond e₂ q) : FileTargetCond e₁ q := by
  rcases hc with ⟨ent, hent, f, hf, he⟩
  rcases specPerm_mem h hent with ⟨fls, hfls, hiff⟩
  exact ⟨(ent.1, fls), hfls, f, (hiff f).mpr hf, he⟩

theorem expectedEntry_perm {e₁ e₂ : List (String × List String)} (h : SpecPerm e₁ e₂)
    (init : FS) (q : Path) : expectedEntry e₂ init q = expectedEntry e₁ init q := by
  unfold expectedEntry
  cases lookupFS init q with
  | some v => rfl
  | none =>
    have hdc : DirCreatedCond e₂ init q ↔ DirCreatedCond e₁ init q :=
      ⟨dirCreatedCond_perm h init q, dirCreatedCond_perm (specPerm_symm h) init q⟩
    have hft : FileTargetCond e₂ q ↔ FileTargetCond e₁ q :=
      ⟨fileTargetCond_perm h q, fileTargetCond_perm (specPerm_symm h) q⟩
    exact if_congr hdc rfl (if_congr hft rfl rfl)

/-! Claim theorems. -/

/-- Claim C7: the specification table contains exactly the directories and
per-directory file counts enumerated in the spec, with one route file in
each api directory and the single store file named index. -/
theorem directories_spec_shape :
    directories.map (fun ent => (ent.1, ent.2.length)) =
      [("public/fonts", 0), ("public/icons", 0), ("public/presets", 0),
       ("app/api/export", 1), ("app/api/presets", 1),
       ("components/ui", 9), ("components/layout", 3), ("components/audio", 8),
       ("components/modals", 3), ("components/controls", 10),
       ("lib/audio", 5), ("lib/hooks", 4), ("lib/utils", 3),
       ("types", 3), ("store", 1), ("store/slices", 3)] ∧
    ("app/api/export", ["route.ts"]) ∈ directories ∧
    ("app/api/presets", ["route.ts"]) ∈ directories ∧
    ("store", ["index.ts"]) ∈ directories := by
  refine ⟨rfl, by decide, by decide, by decide⟩

/-- Claim C1: after a successful run, running the build again from the
resulting filesystem leaves the filesystem unchanged, emits no creation log
line (only the final summary line), and succeeds. -/
theorem create_structure_idempotent (fs : FS) (h : (create_structure fs).err = none) :
    create_structure ((create_structure fs).fs) =
      ⟨(create_structure fs).fs, [LogLine.summary], none⟩ := by
  rw [create_structure_err] at h
  have hrun := runEntries_of_err_none fs [] directories h
  have hcomp := runEntries_complete directories ⟨fs, []⟩ _ hrun
  rw [create_structure_fs]
  have hskip : runEntries ⟨(runEntries ⟨fs, []⟩ directories).1.fs, []⟩ directories =
      (⟨(runEntries ⟨fs, []⟩ directories).1.fs, []⟩, none) :=
    runEntries_skip directories _ hcomp
  unfold create_structure
  rw [hskip]
  simp

theorem create_structure_idempotent_witness :
    create_structure ((create_structure []).fs) =
      ⟨(create_structure []).fs, [LogLine.summary], none⟩ :=
  create_structure_idempotent [] (by decide)

/-- Claim C2: after a successful run, every table directory path exists,
every listed file path exists, and every file that was absent before the
run (hence newly created) is bound to an empty (zero byte) file. -/
theorem create_structure_complete (fs : FS) (ent : String × List String)
    (h : (create_structure fs).err = none) (hent : ent ∈ directories) :
    pathExists (create_structure fs).fs (resolveDir ent.1) = true ∧
    ∀ f ∈ ent.2,
      pathExists (create_structure fs).fs (resolveDir ent.1 ++ [f]) = true ∧
      (lookupFS fs (resolveDir ent.1 ++ [f]) = none →
        lookupFS (create_structure fs).fs (resolveDir ent.1 ++ [f]) =
          some (.file "")) := by
  rw [create_structure_err] at h
  have hrun := runEntries_of_err_none fs [] directories h
  have hdisj : FilesNotDirs directories := by decide
  rw [create_structure_fs]
  refine ⟨(runEntries_complete directories ⟨fs, []⟩ _ hrun ent hent).1,
    fun f hf => ⟨(runEntries_complete directories ⟨fs, []⟩ _ hrun ent hent).2 f hf,
      fun hnone => ?_⟩⟩
  exact runEntries_file_create directories directories ⟨fs, []⟩ _
    (List.Subset.refl _) hdisj hrun ent hent f hf (Or.inl hnone)

theorem create_structure_complete_witness :
    pathExists (create_structure []).fs (resolveDir "store") = true ∧
    pathExists (create_structure []).fs (resolveDir "store" ++ ["index.ts"]) = true ∧
    lookupFS (create_structure []).fs (resolveDir "store" ++ ["index.ts"]) =
      some (.file "") := by
  have h := create_structure_complete [] ("store", ["index.ts"]) (by decide) (by decide)
  exact ⟨h.1, (h.2 "index.ts" (by decide)).1, (h.2 "index.ts" (by decide)).2 (by decide)⟩

/-- Claim C3: a file that exists before the run keeps its exact content,
whatever it is (the run never truncates or overwrites existing entries),
and on success every listed sibling file of the table still exists
afterwards. -/
theorem create_structure_nondestructive (fs : FS) (p : Path) (c : String)
    (h : lookupFS fs p = some (.file c)) :
    lookupFS (create_structure fs).fs p = some (.file c) ∧
    ((create_structure fs).err = none →
      ∀ ent ∈ directories, ∀ f ∈ ent.2,
        pathExists (create_structure fs).fs (resolveDir ent.1 ++ [f]) = true) := by
  constructor
  · rw [create_structure_fs]
    rcases hr : runEntries ⟨fs, []⟩ directories with ⟨st, e?⟩
    exact runEntries_frame directories ⟨fs, []⟩ st e? hr p _ h
  · intro herr ent hent f hf
    rw [create_structure_err] at herr
    have hrun := runEntries_of_err_none fs [] directories herr
    rw [create_structure_fs]
    exact (runEntries_complete directories ⟨fs, []⟩ _ hrun ent hent).2 f hf

theorem create_structure_nondestructive_witness :
    lookupFS (create_structure
        [([".", "components", "ui", "Button.tsx"], Entry.file "button-content")]).fs
      [".", "components", "ui", "Button.tsx"] = some (.file "button-content") ∧
    pathExists (create_structure
        [([".", "components", "ui", "Button.tsx"], Entry.file "button-content")]).fs
      (resolveDir "components/ui" ++ ["Slider.tsx"]) = true := by
  have h := create_structure_nondestructive
    [([".", "components", "ui", "Button.tsx"], Entry.file "button-content")]
    [".", "components", "ui", "Button.tsx"] "button-content" (by decide)
  refine ⟨h.1, ?_⟩
  exact h.2 (by decide)
    ("components/ui", ["Button.tsx", "Slider.tsx", "Knob.tsx", "Switch.tsx",
      "Card.tsx", "Modal.tsx", "Tabs.tsx", "Dropdown.tsx", "Tooltip.tsx"])
    (by decide) "Slider.tsx" (by decide)

/-- Claim C4: when a filesystem error aborts the run, the process exit
status is nonzero, some initial prefix of the table was processed
successfully, the failing entry produced the error with the final state
being exactly the state at the moment of failure (no entry after it is
processed), and everything created before the failing entry is still
present in the final state. -/
theorem create_structure_error_stops (fs : FS) (e : FsError)
    (h : (create_structure fs).err = some e) :
    exitCode (create_structure fs) ≠ 0 ∧
    ∃ pre ent post st₁,
      directories = pre ++ ent :: post ∧
      runEntries ⟨fs, []⟩ pre = (st₁, none) ∧
      doEntry st₁ ent = (⟨(create_structure fs).fs, (create_structure fs).log⟩, some e) ∧
      ∀ (p : Path) (v : Entry), lookupFS st₁.fs p = some v →
        lookupFS (create_structure fs).fs p = some v := by
  rw [create_structure_err] at h
  rcases hr : runEntries ⟨fs, []⟩ directories with ⟨st, e?⟩
  rw [hr] at h
  simp only at h
  subst h
  have hcs : create_structure fs = ⟨st.fs, st.log, some e⟩ := by
    unfold create_structure
    rw [hr]
  rcases runEntries_err_split directories ⟨fs, []⟩ st e hr with
    ⟨pre, ent, post, st₁, hsplit, hpre, hfail⟩
  rw [hcs]
  refine ⟨by simp [exitCode], pre, ent, post, st₁, hsplit, hpre, hfail, ?_⟩
  intro p v hp
  exact doEntry_frame st₁ ent st (some e) hfail p v hp

theorem create_structure_error_stops_witness :
    exitCode (create_structure [([".", "public"], Entry.file "oops")]) ≠ 0 :=
  (create_structure_error_stops [([".", "public"], Entry.file "oops")]
    (.notADirectory [".", "public"]) (by decide)).1

/-- Claim C5 counterexample: the entry point does not accept a base
directory parameter.  Command-line arguments are ignored: invoked with the
argument base, the run still resolves every scaffold path under the current
directory and creates nothing under base. -/
theorem main_base_arg_ignored :
    main ["base"] [] = create_structure [] ∧
    lookupFS (main ["base"] []).fs ["base", "public", "fonts"] = none ∧
    lookupFS (main ["base"] []).fs [".", "public", "fonts"] = some .dir :=
  ⟨rfl, by decide, by decide⟩

/-- Claim C5 (amended): the entry point requires no arguments and accepts
no base directory parameter (any arguments are ignored); the base directory
is fixed to the current working directory and every scaffold path is
resolved relative to it. -/
theorem main_fixed_base_dir (args : List String) (fs : FS)
    (ent : String × List String) (hent : ent ∈ directories) :
    main args fs = create_structure fs ∧
    (resolveDir ent.1).head? = some base_dir ∧ base_dir = "." :=
  ⟨rfl, by simp [resolveDir], rfl⟩

theorem main_fixed_base_dir_witness :
    main ["ignored"] [] = create_structure [] ∧
    (resolveDir "public/fonts").head? = some base_dir ∧ base_dir = "." :=
  main_fixed_base_dir ["ignored"] [] ("public/fonts", []) (by decide)

/-- Claim C9: the existence check before directory creation does not check
that the existing entry is a directory.  If the directory path of a table
entry is bound to a regular file, directory creation is skipped silently
(state and log unchanged, no error) when the entry lists no files, and
otherwise the first attempt to create a listed file inside that path is
what fails, with a not-a-directory error at the directory path. -/
theorem dir_check_accepts_any_entry (fs : FS) (lg : List LogLine)
    (d : String) (fls : List String) (c : String)
    (hmem : (d, fls) ∈ directories)
    (hdir : lookupFS fs (resolveDir d) = some (.file c)) :
    (fls = [] → doEntry ⟨fs, lg⟩ (d, fls) = (⟨fs, lg⟩, none)) ∧
    (∀ f rest, fls = f :: rest → lookupFS fs (resolveDir d ++ [f]) = none →
      doEntry ⟨fs, lg⟩ (d, fls) =
        (⟨fs, lg⟩, some (.notADirectory (resolveDir d)))) := by
  have hex : pathExists fs (resolveDir d) = true := pathExists_of_lookup hdir
  constructor
  · intro hnil
    subst hnil
    simp only [doEntry]
    rw [hex, if_pos rfl]
    simp [doFiles]
  · intro f rest hcons hnone
    subst hcons
    simp only [doEntry]
    rw [hex, if_pos rfl]
    simp only [doFiles]
    rw [(pathExists_false_iff _ _).mpr hnone]
    simp only [Bool.false_eq_true, if_false]
    have hw : openWrite fs (resolveDir d ++ [f]) =
        .error (.notADirectory (resolveDir d)) := by
      unfold openWrite
      rw [hnone]
      have hlen : ¬ (resolveDir d ++ [f]).length ≤ 1 := by
        simp [resolveDir]
      rw [if_neg hlen]
      have hdl : (resolveDir d ++ [f]).dropLast = resolveDir d := by simp
      rw [hdl, hdir]
    rw [hw]

theorem dir_check_accepts_any_entry_witness :
    doEntry ⟨[([".", "types"], Entry.file "oops")], []⟩
        ("types", ["audio.ts", "preset.ts", "ui.ts"]) =
      (⟨[([".", "types"], Entry.file "oops")], []⟩,
        some (.notADirectory (resolveDir "types"))) :=
  (dir_check_accepts_any_entry [([".", "types"], Entry.file "oops")] []
    "types" ["audio.ts", "preset.ts", "ui.ts"] "oops" (by decide) (by decide)).2
    "audio.ts" ["preset.ts", "ui.ts"] rfl (by decide)

/-- Claim C10: the run is deterministic.  The embedding is a pure function
of the initial filesystem state: the source consumes no input other than
the filesystem (its table is a compiled-in constant and command-line
arguments are ignored), so two runs from equal initial states produce equal
results, in particular equal final filesystems and identical rendered
standard-output logs. -/
theorem create_structure_deterministic (fs₁ fs₂ : FS) (a₁ a₂ : List String)
    (h : fs₁ = fs₂) :
    main a₁ fs₁ = main a₂ fs₂ ∧
    (main a₁ fs₁).log.map LogLine.render = (main a₂ fs₂).log.map LogLine.render := by
  subst h
  exact ⟨rfl, rfl⟩

theorem create_structure_deterministic_witness :
    main ["x"] [] = main ["y"] [] ∧
    (main ["x"] []).log.map LogLine.render = (main ["y"] []).log.map LogLine.render :=
  create_structure_deterministic [] [] ["x"] ["y"] rfl

/-- Claim C6: for any reordering of the specification table (of its entry
list and of each entry file list), two successful runs from the same
initial filesystem produce extensionally identical final filesystems: every
path is bound to the same entry. -/
theorem runEntries_order_independent (e₂ : List (String × List String)) (fs : FS)
    (hperm : SpecPerm directories e₂)
    (h₁ : (runEntries ⟨fs, []⟩ directories).2 = none)
    (h₂ : (runEntries ⟨fs, []⟩ e₂).2 = none) (q : Path) :
    lookupFS (runEntries ⟨fs, []⟩ directories).1.fs q =
      lookupFS (runEntries ⟨fs, []⟩ e₂).1.fs q := by
  have hd₁ : FilesNotDirs directories := by decide
  have hd₂ : FilesNotDirs e₂ := filesNotDirs_perm hperm hd₁
  have hr₁ := runEntries_of_err_none fs [] directories h₁
  have hr₂ := runEntries_of_err_none fs [] e₂ h₂
  rw [runEntries_char directories hd₁ fs [] _ hr₁ q,
      runEntries_char e₂ hd₂ fs [] _ hr₂ q]
  exact (expectedEntry_perm hperm fs q).symm

theorem runEntries_order_independent_witness :
    lookupFS (runEntries ⟨[], []⟩ directories).1.fs [".", "store"] =
      lookupFS (runEntries ⟨[], []⟩ directoriesReversed).1.fs [".", "store"] :=
  runEntries_order_independent directoriesReversed [] (by decide) (by decide)
    (by decide) [".", "store"]

/-- Claim C8: on a successful run the log contains exactly one creation
line per table directory the run created and none for a directory that
already existed, exactly one creation line per listed file the run created
and none for a file that already existed, and it ends with exactly one
final summary line (no other line is the summary line). -/
theorem create_structure_log_lines (fs : FS) (h : (create_structure fs).err = none) :
    (∀ ent ∈ directories,
      countL (.createdDir ent.1) (create_structure fs).log =
        (if pathExists fs (resolveDir ent.1) then 0 else 1) ∧
      ∀ f ∈ ent.2, countL (.createdFile ent.1 f) (create_structure fs).log =
        (if pathExists fs (resolveDir ent.1 ++ [f]) then 0 else 1)) ∧
    ∃ L, (create_structure fs).log = L ++ [LogLine.summary] ∧
      ∀ x ∈ L, x ≠ LogLine.summary := by
  rw [create_structure_err] at h
  have hlog := create_structure_log_ok fs h
  have hrun := runEntries_of_err_none fs [] directories h
  have hP : directories.Pairwise entSep := by decide
  have hcounts := runEntries_counts directories ⟨fs, []⟩ _ hP hrun
  constructor
  · intro ent hent
    have hc := hcounts ent hent
    constructor
    · rw [hlog, countL_concat]
      have hns : ¬ LogLine.summary = LogLine.createdDir ent.1 := by simp
      rw [if_neg hns, hc.1]
      simp [countL]
    · intro f hf
      rw [hlog, countL_concat]
      have hns : ¬ LogLine.summary = LogLine.createdFile ent.1 f := by simp
      rw [if_neg hns, hc.2 f hf]
      simp [countL]
  · rcases runEntries_log_shape directories ⟨fs, []⟩ _ none hrun with ⟨L, hL, hx⟩
    refine ⟨L, ?_, ?_⟩
    · rw [hlog, hL]
      simp
    · intro x hxL
      rcases hx x hxL with ⟨b, hb, he | ⟨f, hf, he⟩⟩ <;> simp [he]

theorem create_structure_log_lines_witness :
    countL (.createdDir "types") (create_structure []).log =
      (if pathExists [] (resolveDir "types") then 0 else 1) ∧
    countL (.createdFile "store" "index.ts") (create_structure []).log =
      (if pathExists [] (resolveDir "store" ++ ["index.ts"]) then 0 else 1) := by
  have h := create_structure_log_lines [] (by decide)
  exact ⟨(h.1 ("types", ["audio.ts", "preset.ts", "ui.ts"]) (by decide)).1,
    (h.1 ("store", ["index.ts"]) (by decide)).2 "index.ts" (by decide)⟩

end CreateProject
